import Mathlib

/-!
Formal model of the NTA-FIX backend's cryptographic core: Shamir secret
sharing, the authenticated paper cipher, blockchain anchor records, and the
exam-paper share ledger, translated from the JavaScript source
(src/src/utils/encryption.js, src/src/services/BlockchainService.js,
src/src/models/BlockchainTransaction.js, src/src/models/Question.js, and the
exam-paper model).
-/

namespace NtaFix

/-- Prime field with 257 elements. Each byte of a secret is embedded as one
field element; byte values 0..255 lie below the characteristic 257, so the
embedding is faithful. -/
abbrev GF := ZMod 257

instance : Fact (Nat.Prime 257) := ⟨by norm_num⟩

/-- Error taxonomy the spec assigns to the encryption utility (§7):
`InvalidPolicy` for bad split parameters, `InsufficientShares` for too few
shares at reconstruction, `AuthenticationFailure` for a failed tag check. -/
inductive EncError
  | InvalidPolicy
  | InsufficientShares
  | AuthenticationFailure
deriving DecidableEq

/-- Evaluation of the polynomial with coefficients `a 0, ..., a (T-1)` at a
field point; the executable form of the Shamir sharing polynomial. -/
def polyEval (T : ℕ) (a : ℕ → GF) (x : GF) : GF :=
  ∑ i ∈ Finset.range T, a i * x ^ i

/-- Per-byte coefficient function of the sharing polynomial: coefficient 0 is
byte `j` of the secret, higher coefficients come from the randomness
`coeffs`. Modelled from the spec (§3, §4.1): the field arithmetic lives in
the npm package `shamir-secret-sharing`, not in the repository source; the
spec describes a threshold scheme with Lagrange-interpolation-style
consistency, so each byte is shared as the constant coefficient of a
polynomial of degree below `T` with random tail coefficients. -/
def byteCoeffs (secret : List GF) (coeffs : ℕ → ℕ → GF) (j : ℕ) : ℕ → GF :=
  fun k => if k = 0 then secret.getD j 0 else coeffs j k

/-- One Shamir share as returned by `splitSecret`: a 1-based share id, the
per-byte field values, and the policy echoed on each share
(src/src/utils/encryption.js lines 79-84). -/
structure Share where
  id : ℕ
  value : List GF
  threshold : ℕ
  totalParts : ℕ
deriving DecidableEq

/-- Share number `idx + 1` of a split: for each byte position `j`, the sharing
polynomial for byte `j` evaluated at the field point `idx + 1`. -/
def mkShare (T N : ℕ) (secret : List GF) (coeffs : ℕ → ℕ → GF) (idx : ℕ) : Share :=
  { id := idx + 1
    value := (List.range secret.length).map (fun j =>
      polyEval T (byteCoeffs secret coeffs j) ((idx + 1 : ℕ) : GF))
    threshold := T
    totalParts := N }

/-- Modelled from the spec: `split(secret, total: N, threshold: T)` of §4.1.
The validation (`InvalidPolicy` when `T < 2`, `T > N`, or the secret is
empty) and the share derivation are performed by the npm package, not by
repository code; the wrapper `splitSecret` in src maps the resulting share
buffers to records with ids `1..N` (src/src/utils/encryption.js lines
74-89). -/
def splitSecret (T N : ℕ) (secret : List GF) (coeffs : ℕ → ℕ → GF) :
    Except EncError (List Share) :=
  if T < 2 ∨ N < T ∨ secret = [] then Except.error EncError.InvalidPolicy
  else Except.ok ((List.range N).map (mkShare T N secret coeffs))

/-- Field value a share list assigns to share id `i` at byte position `j`
(0 when the id is absent); how `combine` reads each submitted share buffer. -/
def shareValueAt (shares : List Share) (j i : ℕ) : GF :=
  match shares.find? (fun sh => sh.id == i) with
  | some sh => sh.value.getD j 0
  | none => 0

/-- Executable Lagrange interpolation read off at `x = 0`: the value at 0 of
the unique polynomial of degree below `S.card` through the points
`(i, r i)` for `i ∈ S`. -/
def lagrangeAtZero (S : Finset ℕ) (r : ℕ → GF) : GF :=
  ∑ i ∈ S, r i * ∏ j ∈ S.erase i, (((i : GF) - (j : GF))⁻¹ * (0 - (j : GF)))

/-- Proof-side polynomial form of `polyEval` (noncomputable; used only to
invoke the interpolation theory of polynomials over the field). -/
noncomputable def sharePolyP (T : ℕ) (a : ℕ → GF) : Polynomial GF :=
  ∑ i ∈ Finset.range T, Polynomial.C (a i) * Polynomial.X ^ i

/-- Modelled from the spec: the npm package's `combine` — Lagrange
interpolation of each byte's polynomial through the submitted shares'
evaluation points, read off at `x = 0` (§3 global invariant). -/
def combine (shares : List Share) : List GF :=
  let L := (shares.head?.map (fun sh => sh.value.length)).getD 0
  (List.range L).map (fun j =>
    lagrangeAtZero ((shares.map Share.id).toFinset) (shareValueAt shares j))

/-- `reconstructSecret` from src: rejects fewer than `threshold` shares with
the failure the spec names `InsufficientShares`, then combines the share
buffers (src/src/utils/encryption.js lines 94-108). -/
def reconstructSecret (threshold : ℕ) (shares : List Share) :
    Except EncError (List GF) :=
  if shares.length < threshold then Except.error EncError.InsufficientShares
  else Except.ok (combine shares)

/-- Keystream byte `i` of the stream-cipher core. Modelled from the spec: the
AES-256-GCM cipher itself is implemented by Node's crypto library, outside
the repository source. Faithful to the source structure: `createCipher`
derives the cipher state from the key alone, so the keystream depends only on
the key and the byte position — not on the generated iv
(src/src/utils/encryption.js line 31). -/
def keystream (key : List ℕ) (i : ℕ) : ℕ :=
  (key.foldl (fun acc b => (acc * 31 + b) % 256) 17 + i * 109 + 1) % 256

/-- Stream-cipher core: XOR the data bytes with the keystream starting at
position `i`; applying it twice with the same key restores the data. -/
def cipherCore (key : List ℕ) : ℕ → List ℕ → List ℕ
  | _, [] => []
  | i, b :: rest => (b ^^^ keystream key i) :: cipherCore key (i + 1) rest

/-- Modelled from the spec: the GCM authentication tag, as an ideal
(collision-free) message authentication code — the tag determines and is
determined by the authenticating key and the ciphertext (§4.2: decrypt
"fails closed with `AuthenticationFailure` on any mismatch"). -/
structure AuthTag where
  tagKey : List ℕ
  tagData : List ℕ
deriving DecidableEq

/-- The tag the cipher computes over a key and a ciphertext. -/
def computeAuthTag (key ct : List ℕ) : AuthTag :=
  { tagKey := key, tagData := ct }

/-- `EncryptedPayload` as returned by `encrypt`: ciphertext, the generated iv,
and the authentication tag (src/src/utils/encryption.js lines 38-42). -/
structure EncryptedPayload where
  encrypted : List ℕ
  iv : List ℕ
  authTag : AuthTag
deriving DecidableEq

/-- `encrypt` from src: a fresh random iv is generated (passed here as an
explicit argument, since randomness is external) and returned in the payload,
but `createCipher` receives only the key, so the cipher state — and hence the
ciphertext and the tag — do not depend on the iv
(src/src/utils/encryption.js lines 27-47). -/
def encrypt (key iv data : List ℕ) : EncryptedPayload :=
  { encrypted := cipherCore key 0 data
    iv := iv
    authTag := computeAuthTag key (cipherCore key 0 data) }

/-- `decrypt` from src: `createDecipher` again derives the cipher state from
the key alone (line 58) and the stored iv is read but never used (line 55);
GCM verifies the tag in `final()` and releases no plaintext on mismatch — the
spec names that failure `AuthenticationFailure`
(src/src/utils/encryption.js lines 52-69). -/
def decrypt (key : List ℕ) (p : EncryptedPayload) : Except EncError (List ℕ) :=
  if p.authTag = computeAuthTag key p.encrypted then
    Except.ok (cipherCore key 0 p.encrypted)
  else Except.error EncError.AuthenticationFailure

/-- Status enum of a blockchain transaction record
(src/src/models/BlockchainTransaction.js lines 43-48). -/
inductive TxStatus
  | pending
  | confirmed
  | failed
  | reverted
deriving DecidableEq

/-- A blockchain transaction record (anchor record) with the fields the
anchor/verify/retry operations touch
(src/src/models/BlockchainTransaction.js). Timestamps are abstract ticks. -/
structure BlockchainTransaction where
  transactionId : String
  entityType : String
  entityId : String
  dataHash : String
  status : TxStatus
  retryCount : ℕ
  maxRetries : ℕ
  errorMessage : Option String
  submittedAt : ℕ
  confirmedAt : Option ℕ
  failedAt : Option ℕ
deriving DecidableEq

/-- `verifyDataIntegrity` from src: `findOne` with no sort takes the first
record in the store's natural (insertion) order matching the entity and
`status: 'confirmed'`; absence yields `false`, otherwise the stored hash is
compared with the local hash (src/src/services/BlockchainService.js lines
351-369). The store is modelled as the list of records in insertion order. -/
def verifyDataIntegrity (db : List BlockchainTransaction)
    (entityId entityType localHash : String) : Bool :=
  match db.find? (fun t =>
      t.entityId == entityId && t.entityType == entityType &&
      t.status == TxStatus.confirmed) with
  | none => false
  | some t => t.dataHash == localHash

/-- Spec-side definition (§4.4): under append-only log semantics the latest
confirmed record for an entity is authoritative — the last matching record in
insertion order. Stated from the spec's words, to compare with the code's
lookup. -/
def specLatestConfirmedHash (db : List BlockchainTransaction)
    (entityId entityType : String) : Option String :=
  ((db.filter (fun t =>
      t.entityId == entityId && t.entityType == entityType &&
      t.status == TxStatus.confirmed)).getLast?).map
    (fun t => t.dataHash)

/-- `incrementRetry` from src: bumps the retry count, and when it reaches
`maxRetries` moves the record to `failed`, records the error message and the
failure timestamp (src/src/models/BlockchainTransaction.js lines 195-203). -/
def incrementRetry (now : ℕ) (t : BlockchainTransaction) : BlockchainTransaction :=
  let rc := t.retryCount + 1
  if t.maxRetries ≤ rc then
    { t with retryCount := rc, status := TxStatus.failed,
             errorMessage := some "Max retries exceeded", failedAt := some now }
  else { t with retryCount := rc }

/-- `resetForRetry` from src: the explicit, operator-triggered reset of a
record back to `pending` (src/src/models/BlockchainTransaction.js lines
206-211). -/
def resetForRetry (t : BlockchainTransaction) : BlockchainTransaction :=
  { t with status := TxStatus.pending, errorMessage := none, failedAt := none }

/-- `findPending` from src: the records automatic processing picks up — those
with status `pending`, ordered by submission time
(src/src/models/BlockchainTransaction.js lines 214-216). -/
def findPending (db : List BlockchainTransaction) : List BlockchainTransaction :=
  (db.filter (fun t => t.status == TxStatus.pending)).mergeSort
    (fun a b => a.submittedAt ≤ b.submittedAt)

/-- The four answer options of a question (src/src/models/Question.js). -/
structure QuestionOptions where
  A : String
  B : String
  C : String
  D : String
deriving DecidableEq

/-- A question document with the schema fields of src/src/models/Question.js;
optional schema fields are `Option`, timestamps are abstract ticks. -/
structure QuestionDoc where
  questionId : String
  stateCode : String
  subject : String
  topic : String
  difficulty : String
  questionText : String
  options : QuestionOptions
  correctAnswer : String
  explanation : Option String
  marks : ℕ
  timeLimit : ℕ
  isActive : Bool
  isVerified : Bool
  verifiedBy : Option String
  verifiedAt : Option ℕ
  blockchainHash : Option String
  blockchainTxId : Option String
  usageCount : ℕ
  lastUsed : Option ℕ
  tags : List String
deriving DecidableEq

/-- The plain-object form of a question (`toObject()`): every field of the
document, with the fields that `getForExam` deletes represented as `Option`
(a deleted key is `none`). -/
structure QuestionObject where
  questionId : String
  stateCode : String
  subject : String
  topic : String
  difficulty : String
  questionText : String
  options : QuestionOptions
  correctAnswer : Option String
  explanation : Option String
  marks : ℕ
  timeLimit : ℕ
  isActive : Bool
  isVerified : Bool
  verifiedBy : Option String
  verifiedAt : Option ℕ
  blockchainHash : Option String
  blockchainTxId : Option String
  usageCount : ℕ
  lastUsed : Option ℕ
  tags : List String
deriving DecidableEq

/-- `this.toObject()`: a plain copy of the document with all fields present. -/
def QuestionDoc.toObject (q : QuestionDoc) : QuestionObject :=
  { questionId := q.questionId
    stateCode := q.stateCode
    subject := q.subject
    topic := q.topic
    difficulty := q.difficulty
    questionText := q.questionText
    options := q.options
    correctAnswer := some q.correctAnswer
    explanation := q.explanation
    marks := q.marks
    timeLimit := q.timeLimit
    isActive := q.isActive
    isVerified := q.isVerified
    verifiedBy := q.verifiedBy
    verifiedAt := q.verifiedAt
    blockchainHash := q.blockchainHash
    blockchainTxId := q.blockchainTxId
    usageCount := q.usageCount
    lastUsed := q.lastUsed
    tags := q.tags }

/-- `getForExam` from src: copies the document to a plain object and deletes
`correctAnswer`, `explanation`, `blockchainHash`, `blockchainTxId`,
`verifiedBy` and `verifiedAt` from the copy
(src/src/models/Question.js lines 196-205). -/
def getForExam (q : QuestionDoc) : QuestionObject :=
  let d := q.toObject
  { d with correctAnswer := none, explanation := none, blockchainHash := none,
           blockchainTxId := none, verifiedBy := none, verifiedAt := none }

/-- One distributed Shamir share held on an exam paper
(src/unnamed/part_003, `shamirShares` subdocument). -/
structure ShamirShareRec where
  shareId : ℕ
  share : String
  holder : String
  distributedAt : ℕ
  isUsed : Bool
deriving DecidableEq

/-- An exam paper with the fields the share-ledger methods touch
(src/unnamed/part_003). -/
structure ExamPaper where
  paperId : String
  threshold : ℕ
  totalShares : ℕ
  shamirShares : List ShamirShareRec
deriving DecidableEq

/-- `getAvailableShares` from src: the shares not yet used
(src/unnamed/part_003 lines 291-293). -/
def getAvailableShares (p : ExamPaper) : List ShamirShareRec :=
  p.shamirShares.filter (fun s => !s.isUsed)

/-- `hasEnoughShares` from src: whether the available (unused) shares reach
the paper's threshold (src/unnamed/part_003 lines 296-299). -/
def hasEnoughShares (p : ExamPaper) : Bool :=
  decide (p.threshold ≤ (getAvailableShares p).length)

/-- Mark the first share with the given id as used, or `none` when absent;
`Array.prototype.find` returns the first match. -/
def markFirstUsed (sid : ℕ) : List ShamirShareRec → Option (List ShamirShareRec)
  | [] => none
  | s :: rest =>
    if s.shareId == sid then some ({ s with isUsed := true } :: rest)
    else (markFirstUsed sid rest).map (fun l => s :: l)

/-- `markShareAsUsed` from src: finds the share by id and sets its `isUsed`
flag, failing when no share has the id (src/unnamed/part_003 lines
281-288). -/
def markShareAsUsed (sid : ℕ) (p : ExamPaper) : Except String ExamPaper :=
  match markFirstUsed sid p.shamirShares with
  | some l => Except.ok { p with shamirShares := l }
  | none => Except.error "Share not found"

/-- Example secret for the concrete Shamir scenario: the byte `80`. -/
def exSecret : List GF := [80]

/-- Example randomness for the concrete Shamir scenario. -/
def exCoeffs : ℕ → ℕ → GF := fun _ k => ((k + 7 : ℕ) : GF)

/-- All five shares of the concrete `N = 5`, `T = 3` scenario. -/
def exAll : List Share := (List.range 5).map (mkShare 3 5 exSecret exCoeffs)

/-- The chosen shares with ids 1, 3 and 5 of the concrete scenario. -/
def exChosen : List Share :=
  [mkShare 3 5 exSecret exCoeffs 0, mkShare 3 5 exSecret exCoeffs 2,
   mkShare 3 5 exSecret exCoeffs 4]

/-- Example 32-byte key for the concrete cipher scenarios. -/
def exKey : List ℕ := List.replicate 32 7

/-- An older confirmed anchor record for entity `Q1` with hash `hashA`. -/
def exTxA : BlockchainTransaction :=
  { transactionId := "TX1", entityType := "Question", entityId := "Q1",
    dataHash := "hashA", status := TxStatus.confirmed, retryCount := 0,
    maxRetries := 3, errorMessage := none, submittedAt := 1,
    confirmedAt := some 1, failedAt := none }

/-- A newer confirmed anchor record for the same entity with hash `hashB`. -/
def exTxB : BlockchainTransaction :=
  { exTxA with
    transactionId := "TX2", dataHash := "hashB", submittedAt := 2,
    confirmedAt := some 2 }

/-- A store holding both records in insertion order: `hashA` first. -/
def exDb : List BlockchainTransaction := [exTxA, exTxB]

/-- A pending record two retries in, with `maxRetries = 3`. -/
def exPendingTx : BlockchainTransaction :=
  { transactionId := "TX3", entityType := "Question", entityId := "Q2",
    dataHash := "h", status := TxStatus.pending, retryCount := 2,
    maxRetries := 3, errorMessage := none, submittedAt := 3,
    confirmedAt := none, failedAt := none }

/-! Shamir secret sharing: supporting lemmas. -/

lemma polyEval_eq_eval (T : ℕ) (a : ℕ → GF) (x : GF) :
    polyEval T a x = (sharePolyP T a).eval x := by
  unfold polyEval sharePolyP
  rw [Polynomial.eval_finset_sum]
  simp

lemma sharePolyP_degree_lt (T : ℕ) (a : ℕ → GF) :
    (sharePolyP T a).degree < (T : WithBot ℕ) := by
  refine lt_of_le_of_lt (Polynomial.degree_sum_le _ _) ?_
  refine (Finset.sup_lt_iff ?_).mpr ?_
  · exact_mod_cast WithBot.bot_lt_coe T
  · intro i hi
    refine lt_of_le_of_lt (Polynomial.degree_C_mul_X_pow_le _ _) ?_
    exact_mod_cast Finset.mem_range.mp hi

lemma polyEval_at_zero (T : ℕ) (hT : 1 ≤ T) (a : ℕ → GF) :
    polyEval T a 0 = a 0 := by
  unfold polyEval
  rw [Finset.sum_eq_single 0]
  · simp
  · intro i _ hne
    simp [zero_pow hne]
  · intro h
    exact absurd (Finset.mem_range.mpr hT) h

lemma lagrangeAtZero_eq_interpolate (S : Finset ℕ) (r : ℕ → GF) :
    lagrangeAtZero S r =
      (Lagrange.interpolate S (fun i : ℕ => (i : GF)) r).eval 0 := by
  rw [Lagrange.interpolate_apply, Polynomial.eval_finset_sum]
  unfold lagrangeAtZero
  refine Finset.sum_congr rfl fun i hi => ?_
  rw [Polynomial.eval_mul, Polynomial.eval_C]
  congr 1
  rw [Lagrange.basis, Polynomial.eval_prod]
  refine Finset.prod_congr rfl fun j hj => ?_
  simp [Lagrange.basisDivisor]

lemma mkShare_value_length (T N : ℕ) (secret : List GF) (coeffs : ℕ → ℕ → GF)
    (idx : ℕ) : (mkShare T N secret coeffs idx).value.length = secret.length := by
  simp [mkShare]

lemma mkShare_value_getD (T N : ℕ) (secret : List GF) (coeffs : ℕ → ℕ → GF)
    (idx j : ℕ) (hj : j < secret.length) :
    (mkShare T N secret coeffs idx).value.getD j 0 =
      polyEval T (byteCoeffs secret coeffs j) ((idx + 1 : ℕ) : GF) := by
  unfold mkShare
  rw [List.getD_eq_getElem _ _ (by simpa using hj)]
  simp

/-- C1: for every valid policy `(N, T)` and nonempty secret, reconstructing
from any subset of at least `T` of the shares produced by `splitSecret` —
any sublist of the produced shares with pairwise distinct ids — yields
exactly the secret, regardless of which shares are chosen. -/
theorem reconstruct_of_subset_eq_secret
    (T N : ℕ) (secret : List GF) (coeffs : ℕ → ℕ → GF)
    (allShares chosen : List Share)
    (hT : 2 ≤ T) (hTN : T ≤ N) (hN : N ≤ 20) (hsec : secret ≠ [])
    (hsplit : splitSecret T N secret coeffs = Except.ok allShares)
    (hsub : ∀ sh ∈ chosen, sh ∈ allShares)
    (hnodup : (chosen.map Share.id).Nodup)
    (hlen : T ≤ chosen.length) :
    reconstructSecret T chosen = Except.ok secret := by
  have hvalid : ¬(T < 2 ∨ N < T ∨ secret = []) := by
    push_neg
    exact ⟨by omega, by omega, hsec⟩
  have hall : allShares = (List.range N).map (mkShare T N secret coeffs) := by
    unfold splitSecret at hsplit
    rw [if_neg hvalid] at hsplit
    injection hsplit with h
    exact h.symm
  have hmem : ∀ sh ∈ chosen, ∃ idx, idx < N ∧ sh = mkShare T N secret coeffs idx := by
    intro sh hsh
    have hx := hsub sh hsh
    rw [hall] at hx
    obtain ⟨idx, hidx, hEq⟩ := List.mem_map.mp hx
    exact ⟨idx, List.mem_range.mp hidx, hEq.symm⟩
  set S : Finset ℕ := (chosen.map Share.id).toFinset with hS
  have hid_mem : ∀ i ∈ S, 1 ≤ i ∧ i ≤ N := by
    intro i hi
    rw [hS, List.mem_toFinset] at hi
    obtain ⟨sh, hsh, hid⟩ := List.mem_map.mp hi
    obtain ⟨idx, hidx, rfl⟩ := hmem sh hsh
    subst hid
    refine ⟨by simp [mkShare], ?_⟩
    show (mkShare T N secret coeffs idx).id ≤ N
    simp only [mkShare]
    omega
  have hinj : Set.InjOn (fun i : ℕ => (i : GF)) S := by
    intro i hi j hj hij
    simp only at hij
    have hiN := (hid_mem i (Finset.mem_coe.mp hi)).2
    have hjN := (hid_mem j (Finset.mem_coe.mp hj)).2
    have hval := congrArg ZMod.val hij
    rw [ZMod.val_natCast_of_lt (by omega), ZMod.val_natCast_of_lt (by omega)] at hval
    exact hval
  have hcard : T ≤ S.card := by
    rw [hS, List.toFinset_card_of_nodup hnodup, List.length_map]
    exact hlen
  have hvals : ∀ j, j < secret.length → ∀ i ∈ S,
      shareValueAt chosen j i = polyEval T (byteCoeffs secret coeffs j) ((i : ℕ) : GF) := by
    intro j hj i hi
    rw [hS, List.mem_toFinset] at hi
    obtain ⟨sh, hsh, hid⟩ := List.mem_map.mp hi
    have hfind : (chosen.find? (fun s => s.id == i)).isSome :=
      List.find?_isSome.mpr ⟨sh, hsh, by simp [hid]⟩
    obtain ⟨sh', hfind'⟩ := Option.isSome_iff_exists.mp hfind
    have hsh' : sh' ∈ chosen := List.mem_of_find?_eq_some hfind'
    have hid' : sh'.id = i := by simpa using List.find?_some hfind'
    obtain ⟨idx, hidx, rfl⟩ := hmem sh' hsh'
    have hsv : shareValueAt chosen j i = (mkShare T N secret coeffs idx).value.getD j 0 := by
      unfold shareValueAt
      rw [hfind']
    rw [hsv, mkShare_value_getD T N secret coeffs idx j hj]
    have hidx1 : idx + 1 = i := by simpa [mkShare] using hid'
    rw [hidx1]
  have hne : chosen ≠ [] := by
    intro hnil
    rw [hnil] at hlen
    simp at hlen
    omega
  have hhead : ∃ c0, chosen.head? = some c0 := by
    cases chosen with
    | nil => exact absurd rfl hne
    | cons a l => exact ⟨a, rfl⟩
  obtain ⟨c0, hc0⟩ := hhead
  have hc0mem : c0 ∈ chosen := List.mem_of_mem_head? hc0
  obtain ⟨idx0, hidx0, hc0eq⟩ := hmem c0 hc0mem
  have hL : (chosen.head?.map (fun sh => sh.value.length)).getD 0 = secret.length := by
    rw [hc0, hc0eq]
    simp [mkShare]
  have hcomb : combine chosen = secret := by
    simp only [combine]
    rw [hL]
    apply List.ext_getElem
    · simp
    · intro n h1 h2
      simp only [List.getElem_map, List.getElem_range]
      have hdeg : (sharePolyP T (byteCoeffs secret coeffs n)).degree < (S.card : WithBot ℕ) :=
        lt_of_lt_of_le (sharePolyP_degree_lt T _) (by exact_mod_cast hcard)
      have hevals : ∀ i ∈ S, (sharePolyP T (byteCoeffs secret coeffs n)).eval ((i : ℕ) : GF)
          = shareValueAt chosen n i := by
        intro i hi
        rw [← polyEval_eq_eval]
        exact (hvals n h2 i hi).symm
      have heq := Lagrange.eq_interpolate_of_eval_eq (shareValueAt chosen n) hinj hdeg hevals
      rw [lagrangeAtZero_eq_interpolate, ← heq, ← polyEval_eq_eval,
        polyEval_at_zero T (by omega)]
      simp [byteCoeffs, List.getD_eq_getElem secret 0 h2, List.getElem?_eq_getElem h2]
  unfold reconstructSecret
  rw [if_neg (by omega), hcomb]

/-- Witness for C1: the `N = 5`, `T = 3` scenario with shares 1, 3, 5. -/
theorem reconstruct_of_subset_eq_secret_witness :
    reconstructSecret 3 exChosen = Except.ok exSecret :=
  reconstruct_of_subset_eq_secret 3 5 exSecret exCoeffs exAll exChosen
    (by decide) (by decide) (by decide) (by decide) rfl
    (by decide) (by decide) (by decide)

/-- C5: reconstruction from fewer shares than the threshold fails with
`InsufficientShares` and returns no secret. -/
theorem reconstructSecret_insufficient (threshold : ℕ) (shares : List Share)
    (h : shares.length < threshold) :
    reconstructSecret threshold shares = Except.error EncError.InsufficientShares := by
  unfold reconstructSecret
  exact if_pos h

/-- Witness for C5: two shares against threshold 3. -/
theorem reconstructSecret_insufficient_witness :
    [mkShare 3 5 exSecret exCoeffs 1, mkShare 3 5 exSecret exCoeffs 3].length < 3 ∧
      reconstructSecret 3 [mkShare 3 5 exSecret exCoeffs 1, mkShare 3 5 exSecret exCoeffs 3]
        = Except.error EncError.InsufficientShares :=
  ⟨by decide, reconstructSecret_insufficient 3 _ (by decide)⟩

/-- C6: splitting fails with `InvalidPolicy` — producing no shares — whenever
the threshold is below 2, the threshold exceeds the total, or the secret is
empty. -/
theorem splitSecret_invalid (T N : ℕ) (secret : List GF) (coeffs : ℕ → ℕ → GF)
    (h : T < 2 ∨ N < T ∨ secret = []) :
    splitSecret T N secret coeffs = Except.error EncError.InvalidPolicy := by
  unfold splitSecret
  exact if_pos h

/-- Witness for C6: threshold 1 is rejected. -/
theorem splitSecret_invalid_witness :
    (1 < 2 ∨ 5 < 1 ∨ exSecret = []) ∧
      splitSecret 1 5 exSecret exCoeffs = Except.error EncError.InvalidPolicy :=
  ⟨Or.inl (by decide), splitSecret_invalid 1 5 exSecret exCoeffs (Or.inl (by decide))⟩

/-! The paper cipher: round trip and fail-closed authentication. -/

lemma cipherCore_involutive (key : List ℕ) (i : ℕ) (data : List ℕ) :
    cipherCore key i (cipherCore key i data) = data := by
  induction data generalizing i with
  | nil => rfl
  | cons b rest ih => simp [cipherCore, Nat.xor_cancel_right, ih]

/-- C2: decrypting the payload produced by encrypting a plaintext under a key
of the cipher's required length, with the same key, returns exactly the
plaintext. -/
theorem decrypt_encrypt (key iv data : List ℕ) (_hkey : key.length = 32) :
    decrypt key (encrypt key iv data) = Except.ok data := by
  unfold decrypt encrypt
  rw [if_pos rfl, cipherCore_involutive]

/-- Witness for C2: a 32-byte key, a two-byte nonce, a three-byte plaintext. -/
theorem decrypt_encrypt_witness :
    exKey.length = 32 ∧
      decrypt exKey (encrypt exKey [1, 2] [80, 65, 90]) = Except.ok [80, 65, 90] :=
  ⟨by decide, decrypt_encrypt exKey [1, 2] [80, 65, 90] (by decide)⟩

/-- C3, evaluated at a failing input: with the same key and plaintext, two
encryptions whose generated nonces differ produce identical ciphertexts and
identical tags — the generated nonce never reaches the cipher construction
(`createCipher` receives only the key) — and decryption succeeds however the
nonce stored in the payload is altered, so the nonce does not parameterize
the encryption. -/
theorem encrypt_ignores_nonce :
    (encrypt exKey [0] [80, 65]).encrypted = (encrypt exKey [1] [80, 65]).encrypted ∧
    (encrypt exKey [0] [80, 65]).authTag = (encrypt exKey [1] [80, 65]).authTag ∧
    (encrypt exKey [0] [80, 65]).iv ≠ (encrypt exKey [1] [80, 65]).iv ∧
    decrypt exKey { encrypt exKey [0] [80, 65] with iv := [9, 9] } =
      Except.ok [80, 65] := by
  exact ⟨rfl, rfl, by decide, rfl⟩

/-- C4: decryption fails closed with `AuthenticationFailure` — returning no
plaintext — when the ciphertext is mutated, when the authentication tag is
mutated, or when a key different from the encryption key is used. -/
theorem decrypt_fails_closed (key key' iv data ct' : List ℕ) (tag' : AuthTag) :
    (ct' ≠ (encrypt key iv data).encrypted →
      decrypt key { encrypt key iv data with encrypted := ct' }
        = Except.error EncError.AuthenticationFailure) ∧
    (tag' ≠ (encrypt key iv data).authTag →
      decrypt key { encrypt key iv data with authTag := tag' }
        = Except.error EncError.AuthenticationFailure) ∧
    (key' ≠ key →
      decrypt key' (encrypt key iv data)
        = Except.error EncError.AuthenticationFailure) := by
  refine ⟨?_, ?_, ?_⟩
  · intro hct
    have h : ¬(({ encrypt key iv data with encrypted := ct' } : EncryptedPayload).authTag
        = computeAuthTag key
          ({ encrypt key iv data with encrypted := ct' } : EncryptedPayload).encrypted) := by
      intro hEq
      simp only [encrypt, computeAuthTag] at hEq
      injection hEq with h1 h2
      exact hct h2.symm
    unfold decrypt
    rw [if_neg h]
  · intro htag
    have h : ¬(({ encrypt key iv data with authTag := tag' } : EncryptedPayload).authTag
        = computeAuthTag key
          ({ encrypt key iv data with authTag := tag' } : EncryptedPayload).encrypted) := by
      intro hEq
      simp only [encrypt, computeAuthTag] at hEq
      exact htag (by simp [encrypt, computeAuthTag, hEq])
    unfold decrypt
    rw [if_neg h]
  · intro hkey
    have h : ¬((encrypt key iv data).authTag
        = computeAuthTag key' (encrypt key iv data).encrypted) := by
      intro hEq
      simp only [encrypt, computeAuthTag] at hEq
      injection hEq with h1 h2
      exact hkey h1.symm
    unfold decrypt
    rw [if_neg h]

/-- Witness for C4: a mutated ciphertext, a foreign tag, and a wrong key each
make decryption fail with `AuthenticationFailure` on a concrete payload. -/
theorem decrypt_fails_closed_witness :
    decrypt exKey { encrypt exKey [2] [80] with encrypted := [] }
        = Except.error EncError.AuthenticationFailure ∧
    decrypt exKey { encrypt exKey [2] [80] with authTag := computeAuthTag [3] [4] }
        = Except.error EncError.AuthenticationFailure ∧
    decrypt [1] (encrypt exKey [2] [80])
        = Except.error EncError.AuthenticationFailure :=
  ⟨(decrypt_fails_closed exKey [1] [2] [80] [] (computeAuthTag [3] [4])).1 (by decide),
   (decrypt_fails_closed exKey [1] [2] [80] [] (computeAuthTag [3] [4])).2.1 (by decide),
   (decrypt_fails_closed exKey [1] [2] [80] [] (computeAuthTag [3] [4])).2.2 (by decide)⟩

/-! Anchor records: verification lookup and the retry state machine. -/

/-- Counterexample for C7: with two confirmed records for the same entity, the
spec's "latest confirmed" record carries `hashB`, yet verifying against
`hashB` returns `false` — the code compares against the first stored
confirmed record, not the latest. -/
theorem verifyDataIntegrity_not_latest :
    specLatestConfirmedHash exDb "Q1" "Question" = some "hashB" ∧
      verifyDataIntegrity exDb "Q1" "Question" "hashB" = false :=
  ⟨rfl, rfl⟩

/-- C7 (amended): `verifyDataIntegrity` returns `true` iff a confirmed anchor
record for the entity exists and the first such record in store (insertion)
order has exactly the local hash; a missing record or a hash mismatch yields
`false` as a normal boolean result, not an error. -/
theorem verifyDataIntegrity_first_confirmed (db : List BlockchainTransaction)
    (entityId entityType localHash : String) :
    verifyDataIntegrity db entityId entityType localHash = true ↔
      ∃ t, db.find? (fun t =>
          t.entityId == entityId && t.entityType == entityType &&
          t.status == TxStatus.confirmed) = some t ∧
        t.dataHash = localHash := by
  unfold verifyDataIntegrity
  cases hfind : db.find? (fun t =>
      t.entityId == entityId && t.entityType == entityType &&
      t.status == TxStatus.confirmed) with
  | none => simp
  | some t => simp

/-- C8: a retry step on a pending record increments the retry count; when the
count reaches `maxRetries` the record becomes `failed` with the failure
timestamp recorded and is never again selected for automatic retry
(`findPending` skips it); otherwise it stays `pending` with its count
strictly below `maxRetries`. -/
theorem incrementRetry_state_machine (t : BlockchainTransaction) (now : ℕ)
    (h : t.status = TxStatus.pending) :
    (incrementRetry now t).retryCount = t.retryCount + 1 ∧
    (t.maxRetries ≤ t.retryCount + 1 →
      (incrementRetry now t).status = TxStatus.failed ∧
      (incrementRetry now t).failedAt = some now ∧
      ∀ db : List BlockchainTransaction, incrementRetry now t ∉ findPending db) ∧
    (t.retryCount + 1 < t.maxRetries →
      (incrementRetry now t).status = TxStatus.pending ∧
      (incrementRetry now t).retryCount < t.maxRetries) := by
  simp only [incrementRetry]
  by_cases hc : t.maxRetries ≤ t.retryCount + 1
  · rw [if_pos hc]
    refine ⟨rfl, fun _ => ⟨rfl, rfl, ?_⟩, fun hlt => absurd hc (by omega)⟩
    intro db hmem
    unfold findPending at hmem
    rw [List.mem_mergeSort] at hmem
    have hp := List.of_mem_filter hmem
    simp at hp
  · rw [if_neg hc]
    refine ⟨rfl, fun hge => absurd hge hc, fun hlt => ⟨?_, by simpa using hlt⟩⟩
    show ({ t with retryCount := t.retryCount + 1 } : BlockchainTransaction).status
      = TxStatus.pending
    simpa using h

/-- Witness for C8: the pending record with `retryCount = 2`, `maxRetries = 3`
moves to `failed` with the failure timestamp on its third failed retry. -/
theorem incrementRetry_state_machine_witness :
    exPendingTx.status = TxStatus.pending ∧
    (incrementRetry 9 exPendingTx).status = TxStatus.failed ∧
    (incrementRetry 9 exPendingTx).failedAt = some 9 :=
  ⟨rfl, ((incrementRetry_state_machine exPendingTx 9 rfl).2.1 (by decide)).1,
    ((incrementRetry_state_machine exPendingTx 9 rfl).2.1 (by decide)).2.1⟩

/-! The question model and the exam-paper share ledger. -/

/-- C9: `getForExam` returns the question's plain object with `correctAnswer`,
`explanation`, `blockchainHash`, `blockchainTxId`, `verifiedBy` and
`verifiedAt` removed, and every other field unchanged; the deletions happen
on the `toObject()` copy, so the question document itself is untouched. -/
theorem getForExam_strips_sensitive (q : QuestionDoc) :
    (getForExam q).correctAnswer = none ∧
    (getForExam q).explanation = none ∧
    (getForExam q).blockchainHash = none ∧
    (getForExam q).blockchainTxId = none ∧
    (getForExam q).verifiedBy = none ∧
    (getForExam q).verifiedAt = none ∧
    (getForExam q).questionId = q.questionId ∧
    (getForExam q).stateCode = q.stateCode ∧
    (getForExam q).subject = q.subject ∧
    (getForExam q).topic = q.topic ∧
    (getForExam q).difficulty = q.difficulty ∧
    (getForExam q).questionText = q.questionText ∧
    (getForExam q).options = q.options ∧
    (getForExam q).marks = q.marks ∧
    (getForExam q).timeLimit = q.timeLimit ∧
    (getForExam q).isActive = q.isActive ∧
    (getForExam q).isVerified = q.isVerified ∧
    (getForExam q).usageCount = q.usageCount ∧
    (getForExam q).lastUsed = q.lastUsed ∧
    (getForExam q).tags = q.tags :=
  ⟨rfl, rfl, rfl, rfl, rfl, rfl, rfl, rfl, rfl, rfl, rfl, rfl, rfl, rfl, rfl,
   rfl, rfl, rfl, rfl, rfl⟩

/-- C10: `hasEnoughShares` holds exactly when the number of shares whose
`isUsed` flag is `false` reaches the paper's threshold — availability is
counted over shares not yet used, not over shares already submitted. -/
theorem hasEnoughShares_iff (p : ExamPaper) :
    hasEnoughShares p = true ↔
      p.threshold ≤ (p.shamirShares.filter (fun s => s.isUsed = false)).length := by
  unfold hasEnoughShares getAvailableShares
  rw [decide_eq_true_iff]
  have hf : p.shamirShares.filter (fun s => !s.isUsed)
      = p.shamirShares.filter (fun s => decide (s.isUsed = false)) :=
    List.filter_congr (fun x _ => by cases hx : x.isUsed <;> simp [hx])
  rw [hf]

end NtaFix
